import Mathlib

/-!
Verification of the `sparkyrng` single-header PRNG library (`sparkyrng.hpp`).

The library implements the xoshiro256** 1.0 generator (Blackman/Vigna):

* `detail::rotl`            — 64-bit rotate left;
* `detail::splitmix64`      — the splitmix64 seed mixer, advancing a referenced
                              64-bit word and returning a mixed output;
* `Xoshiro256StarStarEngine` — four 64-bit state words, with `next`, `seed`
                              (single value and sequence forms), `discard`,
                              `state`/`set_state`;
* the distribution layer    — `Random::bits`, `random_u64_limited` (Lemire's
                              algorithm 5), `random_f52`, `random_f53`, ….

The shallow embedding below works over `Nat`; every place where the C++
`uint64_t` arithmetic wraps is rendered as an explicit `% 2^64`.  The xor,
or, and shift operators never overflow 64 bits when their operands are
in range, exactly as in C++, so they carry no reduction.  Fallible or
engine-driven loops (`random_u64_limited` draws a fresh raw word per
rejection) take the stream of raw words as an explicit list and return
`Option Nat`, `none` meaning the supplied stream was exhausted.
-/

namespace sparkyrng

/-- One engine state: `std::array<uint64_t, 4> state_`.  Words are `Nat`s that
are kept below `2^64` by the operations themselves. -/
structure State where
  s0 : Nat
  s1 : Nat
  s2 : Nat
  s3 : Nat
deriving DecidableEq, Repr

/-- `st.Bounded` says all four words fit in 64 bits, as `uint64_t` guarantees. -/
def State.Bounded (st : State) : Prop :=
  st.s0 < 2 ^ 64 ∧ st.s1 < 2 ^ 64 ∧ st.s2 < 2 ^ 64 ∧ st.s3 < 2 ^ 64

instance (st : State) : Decidable st.Bounded := by
  unfold State.Bounded
  infer_instance

/-- `detail::rotl`: `(x << k) | (x >> (64 - k))` on `uint64_t`; the left shift
wraps modulo `2^64`. -/
def rotl (x : Nat) (k : Nat) : Nat :=
  ((x <<< k) % 2 ^ 64) ||| (x >>> (64 - k))

/-- `detail::splitmix64`: advances the referenced word by the golden-ratio
constant and mixes.  Returns `(mixed output, advanced word)`; the C++ version
writes the advanced word back through the pointer. -/
def splitmix64 (s : Nat) : Nat × Nat :=
  let z0 := (s + 0x9e3779b97f4a7c15) % 2 ^ 64
  let z1 := ((z0 ^^^ (z0 >>> 30)) * 0xbf58476d1ce4e5b9) % 2 ^ 64
  let z2 := ((z1 ^^^ (z1 >>> 27)) * 0x94d049bb133111eb) % 2 ^ 64
  (z2 ^^^ (z2 >>> 31), z0)

/-- `Xoshiro256StarStarEngine::next`: computes the output from the
pre-transition state, then mutates the four words in the source's order.
The sequential `let`s mirror the C++ statement sequence: each xor reads
the values produced by the statements before it. -/
def next (st : State) : Nat × State :=
  let result_starstar := (rotl ((st.s1 * 5) % 2 ^ 64) 7 * 9) % 2 ^ 64
  let t := (st.s1 <<< 17) % 2 ^ 64
  let s2a := st.s2 ^^^ st.s0
  let s3a := st.s3 ^^^ st.s1
  let s1a := st.s1 ^^^ s2a
  let s0a := st.s0 ^^^ s3a
  let s2b := s2a ^^^ t
  let s3b := rotl s3a 45
  (result_starstar, ⟨s0a, s1a, s2b, s3b⟩)

/-- The state-transition part of `next` (output discarded). -/
def nextState (st : State) : State := (next st).2

/-- `Xoshiro256StarStarEngine::discard`: `for(; z != 0; --z) next();`. -/
def discard : Nat → State → State
  | 0, st => st
  | n + 1, st => discard n (nextState st)

/-- The first `n` outputs of the engine started at `st`. -/
def outputs : Nat → State → List Nat
  | 0, _ => []
  | n + 1, st => (next st).1 :: outputs n (nextState st)

/-- The initial constants of `Xoshiro256StarStarEngine::seed` ("start with
well mixed bits"). -/
def seedInit : State :=
  ⟨0x5FAF84EE2AA04CFF, 0xB3A2EF3524D89987, 0x5A82B68EF098F79D, 0x5D7AA03298486D6E⟩

/-- One pass of the seeding loop `for(auto &&a : state_) a += splitmix64(&s);`:
the mixer value is threaded through the four sequential calls, each addition
wraps modulo `2^64`.  Returns the new state and the advanced mixer word. -/
def addMix (st : State) (v : Nat) : State × Nat :=
  let r0 := splitmix64 v
  let r1 := splitmix64 r0.2
  let r2 := splitmix64 r1.2
  let r3 := splitmix64 r2.2
  (⟨(st.s0 + r0.1) % 2 ^ 64, (st.s1 + r1.1) % 2 ^ 64,
    (st.s2 + r2.1) % 2 ^ 64, (st.s3 + r3.1) % 2 ^ 64⟩, r3.2)

/-- The all-zero check of `seed`: if all four words are zero, force
`state_[1]` to a fixed non-zero constant. -/
def zeroFix (st : State) : State :=
  if st.s0 = 0 ∧ st.s1 = 0 ∧ st.s2 = 0 ∧ st.s3 = 0 then
    ⟨st.s0, 0x1615CA18E55EE70C, st.s2, st.s3⟩
  else st

/-- `Xoshiro256StarStarEngine::seed(result_type)`: constants, four mixed
additions threading the seed through `splitmix64`, zero check, 256-step
burn-in. -/
def seed (v : Nat) : State :=
  discard 256 (zeroFix (addMix seedInit v).1)

/-- `Xoshiro256StarStarEngine::seed(Sseq&)`: same, but the four-word mixing
pass runs once per element of the sequence, each element starting a fresh
mixer word (the C++ loop variable `s` is a copy of the element). -/
def seedSeq (vs : List Nat) : State :=
  discard 256 (zeroFix (vs.foldl (fun st v => (addMix st v).1) seedInit))

/-- `Xoshiro256StarStarEngine::state`: the engine is exactly its state. -/
def state (e : State) : State := e

/-- `Xoshiro256StarStarEngine::set_state`: replaces the engine's state. -/
def set_state (_e : State) (s : State) : State := s

/-- `Random::bits()`: one raw word from the engine. -/
def bits (st : State) : Nat × State := next st

/-- `Random::bits(int b)`: `bits() >> (64 - b)`, the top `b` bits of a fresh
raw word.  In C++ a `uint64_t` shift is defined only for counts strictly
below the width 64, so the call is modelled as fallible: `none` when the
shift count `64 - b` is 64 — that is, at `b = 0`, where the source runs
into undefined behavior.  (`b` is meaningful for `0 ≤ b ≤ 64` only; the
spec treats anything outside that as a caller precondition.) -/
def bitsB (b : Nat) (st : State) : Option (Nat × State) :=
  let r := next st
  if 64 - b < 64 then some (r.1 >>> (64 - b), r.2) else none

/-- The `while(l < t)` loop of `detail::random_u64_limited`, entered with the
current product `m` and its low half `l`; draws from `ws` on each retry. -/
def lemireLoop (max_value thr : Nat) (m l : Nat) : List Nat → Option Nat
  | [] => if l < thr then none else some (m >>> 64)
  | x :: xs =>
    if l < thr then
      lemireLoop max_value thr (x * max_value) ((x * max_value) % 2 ^ 64) xs
    else some (m >>> 64)

/-- `detail::random_u64_limited` (Lemire 2018, algorithm 5): the raw words the
callback would produce are supplied as a list; `none` means the list was
exhausted while still rejecting.  `-max_value` on `uint64_t` is
`(2^64 - max_value) % 2^64`. -/
def random_u64_limited (max_value : Nat) : List Nat → Option Nat
  | [] => none
  | x :: xs =>
    let m := x * max_value
    let l := m % 2 ^ 64
    if l < max_value then
      let thr := ((2 ^ 64 - max_value) % 2 ^ 64) % max_value
      lemireLoop max_value thr m l xs
    else some (m >>> 64)

/-- `detail::random_f52`, modelled exactly over `ℚ`.  The C++ code sets the
low 52 bits of the binary64 pattern `0x3FF0000000000000` to `u >> 12` and
reinterprets, which is exactly the real number `1 + (u >> 12) / 2^52`
(a binary64 value in `[1, 2)`); it then subtracts the literal
`0.99999999999999988`, which is the binary64 value `1 - 2^-53`
(`1.0 - DBL_EPSILON/2.0`, per the source comment).  That subtraction of two
binary64 values whose quotient lies in `[1/2, 2]` is exact by Sterbenz's
lemma, so the `ℚ` value below is the exact value the C++ function returns. -/
def random_f52 (u : Nat) : ℚ :=
  (1 + ((u >>> 12 : Nat) : ℚ) / 2 ^ 52) - (1 - 1 / 2 ^ 53)

/-- `detail::random_f53`, modelled exactly over `ℚ`: `(int64_t)(u >> 11)` is
at most `2^53 - 1`, and dividing an integer below `2^53` by the power of two
`2^53` is exact in binary64, so the `ℚ` value below is the exact value the
C++ function returns. -/
def random_f53 (u : Nat) : ℚ :=
  ((u >>> 11 : Nat) : ℚ) / 2 ^ 53

end sparkyrng

namespace sparkyrng

/-- Right shifts never increase a natural number. -/
theorem shiftRight_le_self (x k : Nat) : x >>> k ≤ x := by
  rw [Nat.shiftRight_eq_div_pow]
  exact Nat.div_le_self _ _

/-- `rotl` keeps 64-bit values in 64 bits. -/
theorem rotl_lt {x : Nat} (k : Nat) (hx : x < 2 ^ 64) : rotl x k < 2 ^ 64 :=
  Nat.or_lt_two_pow (Nat.mod_lt _ (by norm_num))
    (Nat.lt_of_le_of_lt (shiftRight_le_self x (64 - k)) hx)

/-- A bitwise or is zero only if both operands are. -/
theorem or_eq_zero_parts {x y : Nat} (h : x ||| y = 0) : x = 0 ∧ y = 0 := by
  constructor <;>
    · apply Nat.eq_of_testBit_eq
      intro i
      have hbit := congrArg (fun z => Nat.testBit z i) h
      simp only [Nat.testBit_or, Nat.zero_testBit, Bool.or_eq_false_iff] at hbit
      simp [hbit.1, hbit.2]

/-- A 64-bit rotation by 45 positions of a 64-bit value is zero only at zero:
the high part forces the value below `2^19`, the wrapped low part forces
divisibility by `2^19`. -/
theorem rotl45_eq_zero {x : Nat} (h : rotl x 45 = 0) : x = 0 := by
  unfold rotl at h
  obtain ⟨hlo, hhi⟩ := or_eq_zero_parts h
  rw [Nat.shiftRight_eq_div_pow] at hhi
  rw [Nat.shiftLeft_eq] at hlo
  have hsmall : x < 2 ^ 19 := by
    have h19 : (64 : Nat) - 45 = 19 := by norm_num
    rw [h19] at hhi
    omega
  have hdvd : 2 ^ 64 ∣ x * 2 ^ 45 := Nat.dvd_of_mod_eq_zero hlo
  obtain ⟨k, hk⟩ := hdvd
  omega

/-- A 64-bit word that equals its own wrapped left shift by 17 is zero. -/
theorem shiftLeft17_fixpoint {b : Nat} (hb : b < 2 ^ 64)
    (h : b = (b <<< 17) % 2 ^ 64) : b = 0 := by
  rw [Nat.shiftLeft_eq] at h
  have h1 : Nat.ModEq (2 ^ 64) b (b * 2 ^ 17) := by
    unfold Nat.ModEq
    omega
  have h2 : Nat.ModEq (2 ^ 64) b (b * 2 ^ 34) := by
    refine h1.trans ?_
    have h17 := h1.mul_right (2 ^ 17)
    rwa [show b * 2 ^ 17 * 2 ^ 17 = b * 2 ^ 34 by ring] at h17
  have h3 : Nat.ModEq (2 ^ 64) b (b * 2 ^ 68) := by
    refine h2.trans ?_
    have h34 := h2.mul_right (2 ^ 34)
    rwa [show b * 2 ^ 34 * 2 ^ 34 = b * 2 ^ 68 by ring] at h34
  have hdvd : (2 : Nat) ^ 64 ∣ b * 2 ^ 68 := ⟨b * 2 ^ 4, by ring⟩
  have h0 : b * 2 ^ 68 % 2 ^ 64 = 0 := Nat.mod_eq_zero_of_dvd hdvd
  have h4 : b % 2 ^ 64 = b * 2 ^ 68 % 2 ^ 64 := h3
  omega

/-- The raw output of `next` fits in 64 bits. -/
theorem next_fst_lt (st : State) : (next st).1 < 2 ^ 64 :=
  Nat.mod_lt _ (by norm_num)

/-- One engine step keeps all four state words in 64 bits. -/
theorem nextState_bounded {st : State} (h : st.Bounded) : (nextState st).Bounded := by
  obtain ⟨a, b, c, d⟩ := st
  obtain ⟨ha, hb, hc, hd⟩ := h
  refine ⟨?_, ?_, ?_, ?_⟩
  · exact Nat.xor_lt_two_pow ha (Nat.xor_lt_two_pow hd hb)
  · exact Nat.xor_lt_two_pow hb (Nat.xor_lt_two_pow hc ha)
  · exact Nat.xor_lt_two_pow (Nat.xor_lt_two_pow hc ha) (Nat.mod_lt _ (by norm_num))
  · exact rotl_lt 45 (Nat.xor_lt_two_pow hd hb)

/-- The only bounded state that `next` maps to the all-zero state is the
all-zero state itself. -/
theorem nextState_eq_zero_imp {st : State} (hb : st.Bounded)
    (h : nextState st = ⟨0, 0, 0, 0⟩) : st = ⟨0, 0, 0, 0⟩ := by
  obtain ⟨a, b, c, d⟩ := st
  obtain ⟨ha, hbb, hc, hd⟩ := hb
  simp only [nextState, next, State.mk.injEq] at h
  obtain ⟨h0, h1, h2, h3⟩ := h
  have hdb : d ^^^ b = 0 := rotl45_eq_zero h3
  have hdb' : d = b := Nat.xor_eq_zero.mp hdb
  rw [hdb] at h0
  have ha0 : a = 0 := by simpa using h0
  have hbc : b = c ^^^ a := Nat.xor_eq_zero.mp h1
  rw [ha0] at hbc
  simp only [Nat.xor_zero] at hbc
  have hct : c ^^^ a = (b <<< 17) % 2 ^ 64 := Nat.xor_eq_zero.mp h2
  rw [ha0] at hct
  simp only [Nat.xor_zero] at hct
  have hb0 : b = 0 := shiftLeft17_fixpoint hbb (hbc.trans hct)
  have hc0 : c = 0 := by rw [← hbc]; exact hb0
  have hd0 : d = 0 := by rw [hdb']; exact hb0
  simp [ha0, hb0, hc0, hd0]

/-- One engine step maps non-zero bounded states to non-zero states. -/
theorem nextState_ne_zero {st : State} (hb : st.Bounded)
    (h : st ≠ ⟨0, 0, 0, 0⟩) : nextState st ≠ ⟨0, 0, 0, 0⟩ :=
  fun hz => h (nextState_eq_zero_imp hb hz)

/-- `discard` keeps the state bounded. -/
theorem discard_bounded : ∀ (n : Nat) {st : State}, st.Bounded → (discard n st).Bounded
  | 0, _, h => h
  | n + 1, _, h => discard_bounded n (nextState_bounded h)

/-- `discard` keeps a bounded state away from all-zero. -/
theorem discard_ne_zero : ∀ (n : Nat) {st : State}, st.Bounded →
    st ≠ ⟨0, 0, 0, 0⟩ → discard n st ≠ ⟨0, 0, 0, 0⟩
  | 0, _, _, h => h
  | n + 1, _, hb, h =>
    discard_ne_zero n (nextState_bounded hb) (nextState_ne_zero hb h)

/-- The zero check of `seed` always leaves a state different from all-zero. -/
theorem zeroFix_ne_zero (st : State) : zeroFix st ≠ ⟨0, 0, 0, 0⟩ := by
  unfold zeroFix
  split
  · simp [State.mk.injEq]
  · rename_i h
    intro hz
    apply h
    rw [hz]
    exact ⟨rfl, rfl, rfl, rfl⟩

/-- The zero check keeps the state bounded. -/
theorem zeroFix_bounded {st : State} (h : st.Bounded) : (zeroFix st).Bounded := by
  unfold zeroFix
  split
  · exact ⟨h.1, by norm_num, h.2.2.1, h.2.2.2⟩
  · exact h

/-- The four-word mixing pass always produces a bounded state. -/
theorem addMix_bounded (st : State) (v : Nat) : (addMix st v).1.Bounded :=
  ⟨Nat.mod_lt _ (by norm_num), Nat.mod_lt _ (by norm_num),
   Nat.mod_lt _ (by norm_num), Nat.mod_lt _ (by norm_num)⟩

/-- Folding the mixing pass over a seed sequence keeps the state bounded. -/
theorem foldl_addMix_bounded : ∀ (vs : List Nat) {st : State}, st.Bounded →
    (vs.foldl (fun st v => (addMix st v).1) st).Bounded
  | [], _, h => h
  | v :: vs, st, _ => foldl_addMix_bounded vs (addMix_bounded st v)

/-- C1: one call to `next()` on state `[s0,s1,s2,s3]` returns
`rotl(s1 * 5, 7) * 9` computed from the pre-transition state (mod `2^64`),
and the new state is the result of the xor chain
`t = s1 << 17; s2 ^= s0; s3 ^= s1; s1 ^= s2; s0 ^= s3; s2 ^= t;
s3 = rotl(s3, 45)` applied in that order, each later xor reading the words
already mutated by the earlier steps — here written with the mutated values
substituted in. -/
theorem next_output_and_transition (s0 s1 s2 s3 : Nat) :
    next ⟨s0, s1, s2, s3⟩ =
      ((rotl ((s1 * 5) % 2 ^ 64) 7 * 9) % 2 ^ 64,
        ⟨s0 ^^^ (s3 ^^^ s1),
         s1 ^^^ (s2 ^^^ s0),
         (s2 ^^^ s0) ^^^ ((s1 <<< 17) % 2 ^ 64),
         rotl (s3 ^^^ s1) 45⟩) := rfl

/-- C2: `seed(v)` starts from the four fixed constants, adds to each word in
order one output of `splitmix64` with the seed threaded through the four
sequential mixer calls (each addition wrapping mod `2^64`), applies the
all-zero check that substitutes `0x1615CA18E55EE70C` into the second word,
and burns in 256 transition steps; the mixer itself advances its word by
`0x9e3779b97f4a7c15` and applies two xor-shift-multiply rounds and a final
xor-shift. -/
theorem seed_mixing_pipeline (v : Nat) :
    seed v =
      discard 256 (zeroFix
        ⟨(0x5FAF84EE2AA04CFF + (splitmix64 v).1) % 2 ^ 64,
         (0xB3A2EF3524D89987 + (splitmix64 (splitmix64 v).2).1) % 2 ^ 64,
         (0x5A82B68EF098F79D + (splitmix64 (splitmix64 (splitmix64 v).2).2).1) % 2 ^ 64,
         (0x5D7AA03298486D6E +
             (splitmix64 (splitmix64 (splitmix64 (splitmix64 v).2).2).2).1) % 2 ^ 64⟩) ∧
      (∀ s : Nat,
        (splitmix64 s).2 = (s + 0x9e3779b97f4a7c15) % 2 ^ 64 ∧
        (splitmix64 s).1 =
          (let z0 := (s + 0x9e3779b97f4a7c15) % 2 ^ 64
           let z1 := ((z0 ^^^ (z0 >>> 30)) * 0xbf58476d1ce4e5b9) % 2 ^ 64
           let z2 := ((z1 ^^^ (z1 >>> 27)) * 0x94d049bb133111eb) % 2 ^ 64
           z2 ^^^ (z2 >>> 31))) ∧
      (∀ st : State, zeroFix st = st ∨
        (st = ⟨0, 0, 0, 0⟩ ∧ zeroFix st = ⟨0, 0x1615CA18E55EE70C, 0, 0⟩)) := by
  refine ⟨rfl, fun s => ⟨rfl, rfl⟩, fun st => ?_⟩
  unfold zeroFix
  split
  · rename_i h
    obtain ⟨a, b, c, d⟩ := st
    obtain ⟨h0, h1, h2, h3⟩ := h
    right
    constructor
    · simp_all
    · simp_all
  · left
    rfl

/-- C10: the transition function maps no non-zero (64-bit) state to the
all-zero state; the all-zero state is its own fixed point; and consequently
non-all-zero-ness is preserved by `discard n` for every `n` (and hence by
every distribution-layer call, each of which advances the engine by some
number of `next` steps). -/
theorem nonzero_state_invariant :
    (∀ st : State, st.Bounded → st ≠ ⟨0, 0, 0, 0⟩ → nextState st ≠ ⟨0, 0, 0, 0⟩) ∧
      nextState ⟨0, 0, 0, 0⟩ = ⟨0, 0, 0, 0⟩ ∧
      (∀ (n : Nat) (st : State), st.Bounded → st ≠ ⟨0, 0, 0, 0⟩ →
        discard n st ≠ ⟨0, 0, 0, 0⟩) :=
  ⟨fun _ hb h => nextState_ne_zero hb h, rfl,
   fun n _ hb h => discard_ne_zero n hb h⟩

/-- Witness for C10 at the concrete state `[1,2,3,4]`. -/
theorem nonzero_state_invariant_witness :
    nextState ⟨1, 2, 3, 4⟩ ≠ ⟨0, 0, 0, 0⟩ ∧ discard 5 ⟨1, 2, 3, 4⟩ ≠ ⟨0, 0, 0, 0⟩ :=
  ⟨nonzero_state_invariant.1 ⟨1, 2, 3, 4⟩ (by decide) (by decide),
   nonzero_state_invariant.2.2 5 ⟨1, 2, 3, 4⟩ (by decide) (by decide)⟩

/-- C4: for every single seed value (including 0) and every seed sequence,
the state after `seed` completes — all-zero check, fixed-word substitution,
and 256-step burn-in included — is not the all-zero state. -/
theorem seed_state_never_zero :
    (∀ v : Nat, seed v ≠ ⟨0, 0, 0, 0⟩) ∧
      (∀ vs : List Nat, seedSeq vs ≠ ⟨0, 0, 0, 0⟩) := by
  constructor
  · intro v
    exact discard_ne_zero 256 (zeroFix_bounded (addMix_bounded seedInit v))
      (zeroFix_ne_zero _)
  · intro vs
    exact discard_ne_zero 256
      (zeroFix_bounded (foldl_addMix_bounded vs (by decide)))
      (zeroFix_ne_zero _)

/-- Witness for C4 at seed 0 and at the sequence `[1, 2, 3]`. -/
theorem seed_state_never_zero_witness :
    seed 0 ≠ ⟨0, 0, 0, 0⟩ ∧ seedSeq [1, 2, 3] ≠ ⟨0, 0, 0, 0⟩ :=
  ⟨seed_state_never_zero.1 0, seed_state_never_zero.2 [1, 2, 3]⟩

/-- `discard` is the `n`-fold iterate of the state transition. -/
theorem discard_eq_iterate : ∀ (n : Nat) (st : State), discard n st = nextState^[n] st
  | 0, _ => rfl
  | n + 1, st => by
    rw [Function.iterate_succ_apply]
    exact discard_eq_iterate n (nextState st)

/-- The last of `n + 1` collected outputs is the output of `next` after
`n` discarded steps. -/
theorem outputs_getLast_eq : ∀ (n : Nat) (st : State),
    (outputs (n + 1) st).getLast? = some ((next (discard n st)).1)
  | 0, _ => rfl
  | n + 1, st => by
    have h := outputs_getLast_eq n (nextState st)
    show ((next st).1 :: outputs (n + 1) (nextState st)).getLast? = _
    have hcons : outputs (n + 1) (nextState st) =
        (next (nextState st)).1 :: outputs n (nextState (nextState st)) := rfl
    rw [hcons, List.getLast?_cons_cons, ← hcons]
    exact h

/-- C5: `discard n` applies the transition `next` exactly `n` times, and
calling `discard 100` then `next` yields the same value as calling `next`
101 times and keeping only the last output. -/
theorem discard_applies_next_n_times :
    (∀ (n : Nat) (st : State), discard n st = nextState^[n] st) ∧
      (∀ st : State, (outputs 101 st).getLast? = some ((next (discard 100 st)).1)) :=
  ⟨discard_eq_iterate, fun st => outputs_getLast_eq 100 st⟩

/-- C6 counterexample: at `b = 0` the source computes `bits() >> 64`, a
shift by the full width of `uint64_t`, which is undefined behavior in C++ —
the call returns no defined result, so the claim's "valid well-defined
shift for every b with 0 ≤ b ≤ 64" fails at `b = 0`. -/
theorem bits_zero_undefined : bitsB 0 ⟨1, 2, 3, 4⟩ = none := rfl

/-- C6 as amended: for every `b` with `1 ≤ b ≤ 64`, `bits(b)` is defined
(the shift count `64 - b` is at most 63) and returns the top `b` bits of
the fresh raw word, computed as `raw >> (64 - b)`, and the result is
strictly below `2^b`. -/
theorem bits_returns_top_bits (b : Nat) (st : State) (hb1 : 1 ≤ b) (hb : b ≤ 64) :
    bitsB b st = some ((next st).1 >>> (64 - b), (next st).2) ∧
      (next st).1 >>> (64 - b) < 2 ^ b := by
  constructor
  · unfold bitsB
    rw [if_pos (by omega)]
  · rw [Nat.shiftRight_eq_div_pow]
    apply Nat.div_lt_of_lt_mul
    calc (next st).1 < 2 ^ 64 := next_fst_lt st
      _ = 2 ^ (64 - b) * 2 ^ b := by rw [← pow_add, Nat.sub_add_cancel hb]

/-- Witness for C6 (amended) at `b = 7` and the concrete state `[1,2,3,4]`. -/
theorem bits_returns_top_bits_witness :
    bitsB 7 ⟨1, 2, 3, 4⟩ =
        some ((next ⟨1, 2, 3, 4⟩).1 >>> (64 - 7), (next ⟨1, 2, 3, 4⟩).2) ∧
      (next ⟨1, 2, 3, 4⟩).1 >>> (64 - 7) < 2 ^ 7 :=
  bits_returns_top_bits 7 ⟨1, 2, 3, 4⟩ (by decide) (by decide)

/-- The high 64 bits of a 128-bit product `x * max_value` with `x < 2^64`
are below `max_value`. -/
theorem product_high_lt {x max_value : Nat} (hx : x < 2 ^ 64) (hmax : 0 < max_value) :
    (x * max_value) >>> 64 < max_value := by
  rw [Nat.shiftRight_eq_div_pow]
  exact Nat.div_lt_of_lt_mul ((Nat.mul_lt_mul_right hmax).mpr hx)

/-- Any value the rejection loop of `random_u64_limited` returns is the high
half of a product of a 64-bit word with `max_value`, hence below
`max_value`. -/
theorem lemireLoop_lt {max_value thr : Nat} (hmax : 0 < max_value) :
    ∀ (ws : List Nat) (m l : Nat), (∀ w ∈ ws, w < 2 ^ 64) →
      (∃ x, x < 2 ^ 64 ∧ m = x * max_value) →
      ∀ r, lemireLoop max_value thr m l ws = some r → r < max_value
  | [], m, l, _, hm, r, h => by
    unfold lemireLoop at h
    split at h
    · cases h
    · obtain ⟨x, hx, hmx⟩ := hm
      have hr : m >>> 64 = r := Option.some.inj h
      rw [← hr, hmx]
      exact product_high_lt hx hmax
  | w :: ws, m, l, hws, hm, r, h => by
    unfold lemireLoop at h
    split at h
    · exact lemireLoop_lt hmax ws _ _ (fun u hu => hws u (List.mem_cons_of_mem w hu))
        ⟨w, hws w (List.mem_cons_self w ws), rfl⟩ r h
    · obtain ⟨x, hx, hmx⟩ := hm
      have hr : m >>> 64 = r := Option.some.inj h
      rw [← hr, hmx]
      exact product_high_lt hx hmax

/-- C3: for `max_value > 0`, whenever `random_u64_limited` produces a value
from a stream of raw 64-bit words, that value is strictly below `max_value`
(so for `max_value = 1` it is 0), and a first word whose low product half is
at least `max_value` is accepted immediately, the result being the high half
of its 128-bit product with `max_value`. -/
theorem u64_limited_below_max (max_value : Nat) (hmax : 0 < max_value)
    (words : List Nat) (hw : ∀ w ∈ words, w < 2 ^ 64) :
    (∀ r, random_u64_limited max_value words = some r →
      r < max_value ∧ (max_value = 1 → r = 0)) ∧
    (∀ x xs, words = x :: xs → max_value ≤ (x * max_value) % 2 ^ 64 →
      random_u64_limited max_value words = some ((x * max_value) >>> 64)) := by
  constructor
  · intro r h
    have hrlt : r < max_value := by
      cases words with
      | nil => cases h
      | cons x xs =>
        simp only [random_u64_limited] at h
        split at h
        · exact lemireLoop_lt hmax xs _ _
            (fun u hu => hw u (List.mem_cons_of_mem x hu))
            ⟨x, hw x (List.mem_cons_self x xs), rfl⟩ r h
        · have hr : (x * max_value) >>> 64 = r := Option.some.inj h
          rw [← hr]
          exact product_high_lt (hw x (List.mem_cons_self x xs)) hmax
    exact ⟨hrlt, fun h1 => by omega⟩
  · intro x xs hcons hge
    subst hcons
    simp only [random_u64_limited]
    rw [if_neg (Nat.not_lt.mpr hge)]

/-- Witness for C3 at `max_value = 3` with the single raw word 5
(`5 * 3 = 15`, low half 15 ≥ 3, accepted immediately, high half 0). -/
theorem u64_limited_below_max_witness : (0 : Nat) < 3 ∧ ((3 : Nat) = 1 → (0 : Nat) = 0) :=
  (u64_limited_below_max 3 (by decide) [5] (by decide)).1 0 (by decide)

/-- C9: with `max_value = 0` the product is 0, its low half 0 is not below
`max_value`, so the first raw word is accepted at once — the
`-max_value % max_value` expression is never evaluated — and the returned
high half is 0, whatever the raw word and whatever words would follow. -/
theorem u64_limited_zero_max (x : Nat) (xs : List Nat) :
    random_u64_limited 0 (x :: xs) = some 0 ∧ random_u64_limited 0 [x] = some 0 := by
  constructor <;>
  · unfold random_u64_limited
    simp

/-- C8: for every raw 64-bit word, `f52()` lies strictly between 0 and 1,
and `f53()` lies in `[0, 1)` and equals the top 53 bits of the raw word
divided exactly by `2^53`.  (`random_f52` and `random_f53` are the exact
rational values of the binary64 results; see their doc comments.) -/
theorem f52_f53_ranges (u : Nat) (hu : u < 2 ^ 64) :
    0 < random_f52 u ∧ random_f52 u < 1 ∧
      0 ≤ random_f53 u ∧ random_f53 u < 1 ∧
      random_f53 u = ((u >>> 11 : Nat) : ℚ) / 2 ^ 53 := by
  have h12 : u >>> 12 < 2 ^ 52 := by
    rw [Nat.shiftRight_eq_div_pow]
    omega
  have h11 : u >>> 11 < 2 ^ 53 := by
    rw [Nat.shiftRight_eq_div_pow]
    omega
  have h12q : ((u >>> 12 : Nat) : ℚ) ≤ 2 ^ 52 - 1 := by
    have hle : u >>> 12 ≤ 2 ^ 52 - 1 := by omega
    have := (Nat.cast_le (α := ℚ)).mpr hle
    push_cast at this
    linarith
  have h12q0 : (0 : ℚ) ≤ ((u >>> 12 : Nat) : ℚ) := Nat.cast_nonneg _
  have h11q : ((u >>> 11 : Nat) : ℚ) ≤ 2 ^ 53 - 1 := by
    have hle : u >>> 11 ≤ 2 ^ 53 - 1 := by omega
    have := (Nat.cast_le (α := ℚ)).mpr hle
    push_cast at this
    linarith
  have h11q0 : (0 : ℚ) ≤ ((u >>> 11 : Nat) : ℚ) := Nat.cast_nonneg _
  refine ⟨?_, ?_, ?_, ?_, rfl⟩
  · show (0 : ℚ) < (1 + ((u >>> 12 : Nat) : ℚ) / 2 ^ 52) - (1 - 1 / 2 ^ 53)
    linarith
  · show (1 + ((u >>> 12 : Nat) : ℚ) / 2 ^ 52) - (1 - 1 / 2 ^ 53) < 1
    linarith
  · show (0 : ℚ) ≤ ((u >>> 11 : Nat) : ℚ) / 2 ^ 53
    positivity
  · show ((u >>> 11 : Nat) : ℚ) / 2 ^ 53 < 1
    rw [div_lt_one (by norm_num)]
    linarith

/-- Witness for C8 at the raw word 5. -/
theorem f52_f53_ranges_witness :
    0 < random_f52 5 ∧ random_f52 5 < 1 ∧
      0 ≤ random_f53 5 ∧ random_f53 5 < 1 ∧
      random_f53 5 = ((5 >>> 11 : Nat) : ℚ) / 2 ^ 53 :=
  f52_f53_ranges 5 (by norm_num)

/-- C7: writing back the state read from the engine (`set_state(state())`)
changes nothing: the subsequent output stream of any length, and the next
`next()` call itself, are those of the untouched engine. -/
theorem set_state_state_roundtrip (e : State) (n : Nat) :
    outputs n (set_state e (state e)) = outputs n e ∧
      next (set_state e (state e)) = next e :=
  ⟨rfl, rfl⟩

end sparkyrng
